import Mathlib

/-!
Shallow embedding of the MVCC storage core of the kontract framework
prototype: the per-logical-table accessor (src/src/storage/TableProxy.ts)
and the transaction coordinator (src/src/runtime/SessionDO.ts).

Payloads are opaque structured values; we model them as flat string-keyed
association lists, which is all the engine ever inspects (the jsonb
containment operator used by query). Transaction ids are naturals: the
coordinator allocates them by incrementing a counter that starts at 0.
The physical per-table relation has the bit-exact columns id, data,
_txid, _deleted_txid, _owner, _order; a table is the list of its rows in
physical insertion sequence.
-/

namespace Kontract

/-- Opaque structured payload: a flat string-keyed association value. -/
abbrev Obj := List (String × String)

/-- One row of a physical per-table relation, with the columns used by
TableProxy: id, data, _txid, _deleted_txid, _owner, _order. The order
column is nullable: rows written by set do not receive one. -/
structure Row where
  id : String
  data : Obj
  txid : Nat
  deletedTxid : Option Nat
  owner : String
  order : Option Nat
deriving Repr, DecidableEq

/-- A physical table: its rows in insertion sequence. The id column is the
primary key, so well-formed tables carry no duplicate ids. -/
abbrev Table := List Row

/-- Primary-key well-formedness of a physical table: ids are unique. -/
abbrev WFTable (t : Table) : Prop := (t.map Row.id).Nodup

namespace TableProxy

/-- MVCC visibility of a row at reading horizon c, exactly the WHERE
clause of TableProxy.get: _txid < c AND (_deleted_txid IS NULL OR
_deleted_txid >= c). -/
def visible (c : Nat) (r : Row) : Bool :=
  decide (r.txid < c) &&
    (match r.deletedTxid with
     | none => true
     | some d => decide (c ≤ d))

/-- TableProxy.get: SELECT data FROM ptr WHERE id = $1 AND _txid < $2 AND
(_deleted_txid IS NULL OR _deleted_txid >= $2); the data of the first
row, or null when none qualifies. -/
def get (t : Table) (c : Nat) (id : String) : Option Obj :=
  ((t.filter (fun r => r.id == id && visible c r)).head?).map Row.data

/-- TableProxy.set: INSERT ... ON CONFLICT (id) DO UPDATE SET data =
EXCLUDED.data, _txid = EXCLUDED._txid. A fresh insert carries no deletion
marker and no order; the conflict path overwrites only data and _txid,
leaving _deleted_txid, _owner and _order untouched. -/
def set (t : Table) (c : Nat) (owner id : String) (v : Obj) : Table :=
  if t.any (fun r => r.id == id) then
    t.map (fun r => if r.id == id then { r with data := v, txid := c } else r)
  else
    t ++ [⟨id, v, c, none, owner, none⟩]

/-- TableProxy.delete: UPDATE ptr SET _deleted_txid = $2 WHERE id = $1
RETURNING id. Returns whether a row matched, and stamps the deletion
marker unconditionally on every matching row. -/
def delete (t : Table) (c : Nat) (id : String) : Bool × Table :=
  (t.any (fun r => r.id == id),
   t.map (fun r => if r.id == id then { r with deletedTxid := some c } else r))

/-- COALESCE(MAX(_order), 0) over the whole table, as computed inside the
insert statement of TableProxy.push. -/
def maxOrder (t : Table) : Nat :=
  (t.filterMap Row.order).foldl Nat.max 0

/-- TableProxy.push: INSERT with _order = (SELECT COALESCE(MAX(_order), 0)
+ 1 FROM ptr), computed in the same statement; the generated id is passed
in as a parameter. -/
def push (t : Table) (c : Nat) (owner id : String) (v : Obj) : Table :=
  t ++ [⟨id, v, c, none, owner, some (maxOrder t + 1)⟩]

/-- SELECT MAX(_order) FROM ptr: null on a table with no ordered row. -/
def maxOrderQ (t : Table) : Option Nat := (t.filterMap Row.order).max?

/-- SELECT MIN(_order) FROM ptr: null on a table with no ordered row. -/
def minOrderQ (t : Table) : Option Nat := (t.filterMap Row.order).min?

/-- TableProxy.pop: DELETE FROM ptr WHERE _order = (SELECT MAX(_order)
FROM ptr) AND _txid < $1 RETURNING data; the subquery ranges over all
rows, and the deletion marker is never consulted. Returns the first
data of the first returned row (null if none) and the table after the
delete. -/
def pop (t : Table) (c : Nat) : Option Obj × Table :=
  match maxOrderQ t with
  | none => (none, t)
  | some m =>
    (((t.filter (fun r => r.order == some m && decide (r.txid < c))).head?).map Row.data,
     t.filter (fun r => !(r.order == some m && decide (r.txid < c))))

/-- TableProxy.shift: DELETE FROM ptr WHERE _order = (SELECT MIN(_order)
FROM ptr) AND _txid < $1 RETURNING data, mirroring pop at the minimum. -/
def shift (t : Table) (c : Nat) : Option Obj × Table :=
  match minOrderQ t with
  | none => (none, t)
  | some m =>
    (((t.filter (fun r => r.order == some m && decide (r.txid < c))).head?).map Row.data,
     t.filter (fun r => !(r.order == some m && decide (r.txid < c))))

/-- Structural superset containment on flat payloads: the jsonb operator
data @> filter, every key-value pair of the filter occurs in the data. -/
def containsKVs (big small : Obj) : Bool :=
  small.all (fun kv => big.contains kv)

/-- Comparison realizing ORDER BY _order ASC with nulls last (the
default ascending null ordering of the backing executor). -/
def orderKeyLe (r s : Row) : Bool :=
  match r.order, s.order with
  | some a, some b => decide (a ≤ b)
  | some _, none => true
  | none, some _ => false
  | none, none => true

/-- TableProxy.query: SELECT data FROM ptr WHERE data @> $1::jsonb AND
_txid < $2 ORDER BY _order; the deletion marker is never consulted. The
async generator materializes the full result before yielding, so the
produced sequence is this finite list. -/
def query (t : Table) (c : Nat) (filter : Obj) : List Obj :=
  ((t.filter (fun r => containsKVs r.data filter && decide (r.txid < c))).mergeSort
    orderKeyLe).map Row.data

end TableProxy

/-! Transaction coordinator, from src/src/runtime/SessionDO.ts. The
active-transaction map is an association list with set-overwrite and
delete, mirroring the JS Map. -/

namespace SessionDO

/-- Map.set on the association list: overwrite the existing binding of
the key, or append a fresh one. -/
def mapSet (m : List (String × Nat)) (k : String) (v : Nat) : List (String × Nat) :=
  if m.any (fun p => p.1 == k) then
    m.map (fun p => if p.1 == k then (k, v) else p)
  else
    m ++ [(k, v)]

/-- Map.delete on the association list. -/
def mapDelete (m : List (String × Nat)) (k : String) : List (String × Nat) :=
  m.filter (fun p => p.1 != k)

/-- Coordinator state: the monotonic txid counter (0 at construction) and
the active-transaction map sid to txid. -/
structure State where
  currentTxid : Nat
  activeTxs : List (String × Nat)
deriving Repr, DecidableEq

/-- A freshly constructed SessionDO. -/
def State.init : State := ⟨0, []⟩

/-- allocateTxid: increment the counter and return it. -/
def allocateTxid (s : State) : Nat × State :=
  (s.currentTxid + 1, { s with currentTxid := s.currentTxid + 1 })

/-- beginTransaction: allocate a txid and record it under the generated
session id (the id itself is random; we take it as an input). -/
def beginTransaction (s : State) (sid : String) : State :=
  let a := allocateTxid s
  { a.2 with activeTxs := mapSet a.2.activeTxs sid a.1 }

/-- commit: drop the session from the active map; a no-op on an unknown
session id. -/
def commit (s : State) (sid : String) : State :=
  { s with activeTxs := mapDelete s.activeTxs sid }

/-- minActiveTxid: the counter when no transaction is open, otherwise the
minimum txid in the active map, computed by the one-pass scan of the
source getter. -/
def minActiveTxid (s : State) : Nat :=
  match s.activeTxs.map Prod.snd with
  | [] => s.currentTxid
  | v :: vs => vs.foldl Nat.min v

/-- One coordinator operation, as invoked by clients. -/
inductive Op where
  | alloc : Op
  | begin : String → Op
  | commit : String → Op
deriving Repr, DecidableEq

/-- Step function of the coordinator. -/
def step (s : State) : Op → State
  | .alloc => (allocateTxid s).2
  | .begin sid => beginTransaction s sid
  | .commit sid => commit s sid

/-- State reached from a fresh coordinator by a sequence of operations. -/
def run (ops : List Op) : State := ops.foldl step State.init

/-- Auxiliary coordinator invariant: every open transaction carries a
txid at most the counter, since txids are allocated from the counter. -/
def CoordInv (s : State) : Prop :=
  ∀ p ∈ s.activeTxs, p.2 ≤ s.currentTxid

end SessionDO

/-! Identifier validation and the guarded raw-execution scanner, from
TableProxy.ts: sanitizeIdentifier, containsOtherTables and exec. Raw SQL
text is modelled at lexical granularity: a statement is a list of tokens,
alternating maximal runs of word characters (the character class
A-Z a-z 0-9 underscore of the source regexes) and maximal runs of
non-word characters. Word boundaries of the source regexes are then
exactly token boundaries. -/

namespace TableProxy

/-- Character class of the source regexes: A-Z, a-z, 0-9 and underscore. -/
def isIdentChar (ch : Char) : Bool :=
  (('a' ≤ ch && ch ≤ 'z') || ('A' ≤ ch && ch ≤ 'Z') ||
   ('0' ≤ ch && ch ≤ '9') || ch == '_')

/-- Test of sanitizeIdentifier: the whole name matches the anchored
pattern of one or more identifier characters. -/
def validIdent (s : String) : Bool :=
  s ≠ "" && s.data.all isIdentChar

/-- Error taxonomy of the accessor, from the throw sites of TableProxy. -/
inductive Err where
  | notFound : Err
  | invalidIdentifier : Err
  | crossTableAccess : Err
deriving Repr, DecidableEq

/-- sanitizeIdentifier: return the name unchanged when it passes the
allow-list, otherwise throw Invalid identifier. -/
def sanitizeIdentifier (name : String) : Except Err String :=
  if validIdent name then .ok name else .error .invalidIdentifier

/-- One lexical token of a raw statement: a word is a maximal run of
identifier characters, a sep a maximal run of anything else. -/
inductive Tok where
  | word : String → Tok
  | sep : String → Tok
deriving Repr, DecidableEq

/-- ASCII lower-casing on character codes; on the identifier character
class of the scanner this is exactly what toLowerCase and the
case-insensitive regex flag perform. -/
def lowerCode (ch : Char) : Nat :=
  let n := ch.toNat
  if 65 ≤ n && n ≤ 90 then n + 32 else n

/-- Case-insensitive string equality through ASCII lower-casing. -/
def eqIC (a b : String) : Bool :=
  a.data.map lowerCode == b.data.map lowerCode

/-- A sep token consisting of whitespace only, as required by the
whitespace class between a FROM or JOIN keyword and its target. -/
def isWsTok : Tok → Bool
  | .sep s => s ≠ "" && s.data.all Char.isWhitespace
  | .word _ => false

/-- Keyword test of the scanner regex, case-insensitive. -/
def isKw (s : String) : Bool :=
  eqIC s "from" || eqIC s "join"

/-- The rewrite step of exec: every whole-word occurrence of the logical
name (case-sensitive, global) becomes the physical name. -/
def rewriteToks (name ptr : String) (toks : List Tok) : List Tok :=
  toks.map (fun t => match t with
    | .word w => .word (if w == name then ptr else w)
    | .sep s => .sep s)

/-- containsOtherTables: the left-to-right scan of the source regex over
the statement. On a match of a FROM or JOIN keyword, whitespace, and a
word, a word differing case-insensitively from ptr flags the statement;
an equal word is consumed together with the keyword (the regex resumes
after the whole match) before scanning continues. -/
def containsOtherTables : List Tok → String → Bool
  | .word kw :: .sep ws :: .word t :: rest2, ptr =>
    if isKw kw && isWsTok (.sep ws) then
      if !eqIC t ptr then true
      else containsOtherTables rest2 ptr
    else containsOtherTables (.word t :: rest2) ptr
  | _ :: rest, ptr => containsOtherTables rest ptr
  | [], _ => false

/-- Modelled from the spec: the rewritten text contains a table-like
reference in a FROM JOIN position differing from the physical name. This
is the plain reading of the scanning clause; every adjacent
keyword-whitespace-word triple counts, with no consumption of a matched
target. -/
def specForeignRef : List Tok → String → Bool
  | .word kw :: .sep ws :: .word t :: rest2, ptr =>
    (isKw kw && isWsTok (.sep ws) && !eqIC t ptr)
      || specForeignRef (.word t :: rest2) ptr
  | _ :: rest, ptr => specForeignRef rest ptr
  | [], _ => false

/-- Modelled from the spec: the statement references only the given
logical name in FROM JOIN positions, the premise of the acceptance
clause for single-table statements. -/
def tableRefsOnly (nm : String) : List Tok → Bool
  | .word kw :: .sep ws :: .word t :: rest2 =>
    (!(isKw kw && isWsTok (.sep ws)) || t == nm)
      && tableRefsOnly nm (.word t :: rest2)
  | _ :: rest => tableRefsOnly nm rest
  | [] => true

/-- exec after pointer resolution: rewrite the statement, reject it when
the scanner flags another table, otherwise hand the rewritten text to the
backing executor (returned here as the issued statement). -/
def execTokens (name ptr : String) (toks : List Tok) : Except Err (List Tok) :=
  let rewritten := rewriteToks name ptr toks
  if containsOtherTables rewritten ptr then .error .crossTableAccess
  else .ok rewritten

end TableProxy

/-! Pointer registry resolution and statement issuance, from
TableProxy.getPtr and the prologue of every accessor operation. This
layer records which statements reach the backing executor, for the
caching and identifier-injection claims. -/

namespace TableProxy

/-- One registry relation row: id (logical name), ptr, owner. -/
structure RegRow where
  id : String
  ptr : String
  owner : String
deriving Repr, DecidableEq

/-- The registry relation. -/
abbrev Registry := List RegRow

/-- SELECT ptr FROM storage WHERE id = $1 AND owner = $2, first row. -/
def lookupReg (reg : Registry) (name owner : String) : Option RegRow :=
  (reg.filter (fun r => r.id == name && r.owner == owner)).head?

/-- The accessor operations that interpolate the resolved identifier. -/
inductive OpKind where
  | get | set | update | del | push | pop | shift | query | exec
deriving Repr, DecidableEq

/-- A statement handed to the backing executor: either the registry
resolution query (its text interpolates nothing), or a table statement
whose text interpolates the resolved physical identifier. -/
inductive Stmt where
  | registry : String → String → Stmt
  | table : OpKind → String → Stmt
deriving Repr, DecidableEq

/-- Instance-local accessor state: the pointer cache. -/
structure ProxyState where
  ptrCache : Option String
deriving Repr, DecidableEq

/-- A fresh accessor instance. -/
def ProxyState.init : ProxyState := ⟨none⟩

/-- The resolution path of getPtr, taken when the cache is not truthy:
issue the registry query, fail with NotFound on a registry miss, sanitize
the resolved pointer (failing before the cache is written), cache and
return it. The third component lists the statements issued. -/
def getPtrResolve (reg : Registry) (name owner : String) (s : ProxyState) :
    Except Err String × ProxyState × List Stmt :=
  match lookupReg reg name owner with
  | none => (.error .notFound, s, [.registry name owner])
  | some row =>
    match sanitizeIdentifier row.ptr with
    | .error e => (.error e, s, [.registry name owner])
    | .ok p => (.ok p, { s with ptrCache := some p }, [.registry name owner])

/-- getPtr: return the cached pointer when the cache is truthy in the JS
sense (an unset cache and a cached empty string both fall through to
resolution), otherwise resolve. -/
def getPtr (reg : Registry) (name owner : String) (s : ProxyState) :
    Except Err String × ProxyState × List Stmt :=
  match s.ptrCache with
  | some p =>
    if p ≠ "" then (.ok p, s, [])
    else getPtrResolve reg name owner s
  | none => getPtrResolve reg name owner s

/-- The shared prologue of every accessor operation: await getPtr, then
issue the table statement interpolating the resolved pointer. On a getPtr
failure the operation rethrows and issues nothing further. The data
effect of each operation is modelled separately on Table; this function
captures which statements are issued. -/
def opRun (k : OpKind) (reg : Registry) (name owner : String) (s : ProxyState) :
    Except Err Unit × ProxyState × List Stmt :=
  match getPtr reg name owner s with
  | (.error e, s2, qs) => (.error e, s2, qs)
  | (.ok p, s2, qs) => (.ok (), s2, qs ++ [.table k p])

end TableProxy

/-! Helper lemmas about id-filtered tables under the primary-key
invariant. -/

namespace TableProxy

/-- Mapping a function that fixes every element is the identity. -/
theorem map_noop (l : List Row) (f : Row → Row) (h : ∀ x ∈ l, f x = x) :
    l.map f = l := by
  induction l with
  | nil => rfl
  | cons a l ih =>
    rw [List.map_cons, h a (List.mem_cons_self a l),
      ih (fun x hx => h x (List.mem_cons_of_mem a hx))]

/-- When no row carries the requested id, the id-filter is empty. -/
theorem filter_id_nil (t : Table) (id : String) (q : Row → Bool)
    (h : ∀ r ∈ t, r.id ≠ id) :
    t.filter (fun x => x.id == id && q x) = [] := by
  induction t with
  | nil => rfl
  | cons a t ih =>
    have ha : (a.id == id) = false :=
      beq_eq_false_iff_ne.2 (h a (List.mem_cons_self a t))
    have hc : (a.id == id && q a) = false := by rw [ha]; rfl
    rw [List.filter_cons, hc, if_neg (by simp)]
    exact ih (fun r hr => h r (List.mem_cons_of_mem a hr))

/-- Under the primary-key invariant, the id-filter of a row present in
the table keeps exactly that row, gated by the extra predicate. -/
theorem filter_id_unique (t : Table) (r : Row) (q : Row → Bool)
    (hwf : WFTable t) (hr : r ∈ t) :
    t.filter (fun x => x.id == r.id && q x) = if q r then [r] else [] := by
  induction t with
  | nil => cases hr
  | cons a t ih =>
    rw [WFTable, List.map_cons, List.nodup_cons] at hwf
    rcases List.mem_cons.1 hr with rfl | hrt
    · have htail : t.filter (fun x => x.id == r.id && q x) = [] :=
        filter_id_nil t r.id q
          (fun x hx he => hwf.1 (he ▸ List.mem_map_of_mem Row.id hx))
      rw [List.filter_cons, htail]
      by_cases hq : q r = true
      · simp [hq]
      · simp [Bool.eq_false_iff.2 hq]
    · have hane : (a.id == r.id) = false :=
        beq_eq_false_iff_ne.2
          (fun he => hwf.1 (he ▸ List.mem_map_of_mem Row.id hrt))
      have hc : (a.id == r.id && q a) = false := by rw [hane]; rfl
      rw [List.filter_cons, hc]
      simpa using ih hwf.2 hrt

/-- Under the primary-key invariant, updating the row with a given id in
place and filtering for that id keeps exactly the updated row, provided
the update preserves ids. -/
theorem filter_id_update (t : Table) (r : Row) (g : Row → Row) (q : Row → Bool)
    (hg : ∀ x, (g x).id = x.id) (hwf : WFTable t) (hr : r ∈ t) :
    (t.map (fun x => if x.id == r.id then g x else x)).filter
      (fun x => x.id == r.id && q x) = if q (g r) then [g r] else [] := by
  have hids : (t.map (fun x => if x.id == r.id then g x else x)).map Row.id
      = t.map Row.id := by
    rw [List.map_map]
    apply List.map_congr_left
    intro x _
    by_cases hx : (x.id == r.id) = true <;> simp [Function.comp, hx, hg]
  have hwf' : WFTable (t.map (fun x => if x.id == r.id then g x else x)) := by
    rw [WFTable, hids]; exact hwf
  have hmem : (if r.id == r.id then g r else r)
      ∈ t.map (fun x => if x.id == r.id then g x else x) :=
    List.mem_map_of_mem _ hr
  have hfr : (if r.id == r.id then g r else r) = g r := by simp
  rw [hfr] at hmem
  have h := filter_id_unique _ (g r) q hwf' hmem
  rw [hg r] at h
  exact h

/-- The boolean visibility test agrees with the MVCC visibility
condition stated over the row columns. -/
theorem visible_iff (c : Nat) (r : Row) :
    visible c r = true ↔
      r.txid < c ∧ (r.deletedTxid = none ∨ ∃ d, r.deletedTxid = some d ∧ c ≤ d) := by
  cases h : r.deletedTxid <;> simp [visible, h]

/-- Unfolding equation of get. -/
theorem get_unfold (t : Table) (c : Nat) (id : String) :
    get t c id
      = ((t.filter (fun x => x.id == id && visible c x)).head?).map Row.data := rfl

/-- Closed form of get on the unique row carrying the requested id. -/
theorem get_eq_of_mem (t : Table) (c : Nat) (r : Row)
    (hwf : WFTable t) (hr : r ∈ t) :
    get t c r.id = if visible c r then some r.data else none := by
  rw [get, filter_id_unique t r (visible c) hwf hr]
  by_cases hv : visible c r = true
  · simp [hv]
  · simp [Bool.eq_false_iff.2 hv]

end TableProxy

namespace Claims

open TableProxy

/-- Claim C1: for every accessor context and record id, get returns the
stored payload if and only if the creation txid of the record is strictly
below currentTxid and its deletion txid is unset or at least currentTxid;
in every other case, including a write stamped at or above currentTxid,
get returns absent. -/
theorem c1_get_visibility (t : Table) (c : Nat) (id : String) (hwf : WFTable t) :
    (∀ r ∈ t, r.id = id →
      (get t c id = some r.data ↔
        r.txid < c ∧ (r.deletedTxid = none ∨ ∃ d, r.deletedTxid = some d ∧ c ≤ d)) ∧
      (¬(r.txid < c ∧ (r.deletedTxid = none ∨ ∃ d, r.deletedTxid = some d ∧ c ≤ d)) →
        get t c id = none)) ∧
    ((∀ r ∈ t, r.id ≠ id) → get t c id = none) := by
  constructor
  · intro r hr hid
    subst hid
    have hg := get_eq_of_mem t c r hwf hr
    constructor
    · constructor
      · intro hsome
        by_cases hv : visible c r = true
        · exact (visible_iff c r).1 hv
        · rw [hg, if_neg (by simp [Bool.eq_false_iff.2 hv])] at hsome
          cases hsome
      · intro hcond
        rw [hg, if_pos ((visible_iff c r).2 hcond)]
    · intro hncond
      have hv : ¬(visible c r = true) := fun hv => hncond ((visible_iff c r).1 hv)
      rw [hg, if_neg (by simp [Bool.eq_false_iff.2 hv])]
  · intro h
    rw [show get t c id
        = ((t.filter (fun x => x.id == id && visible c x)).head?).map Row.data
        from rfl,
      filter_id_nil t id (visible c) h]
    rfl

/-- Witness for C1 on the one-row table of the spec scenario: the row
written at txid 10 is visible at txid 11 and invisible at txid 10. -/
theorem c1_get_visibility_witness :
    WFTable [⟨"u1", [("name", "Ann")], 10, none, "t1", none⟩] ∧
    get [⟨"u1", [("name", "Ann")], 10, none, "t1", none⟩] 11 "u1"
      = some [("name", "Ann")] ∧
    get [⟨"u1", [("name", "Ann")], 10, none, "t1", none⟩] 10 "u1" = none := by
  refine ⟨by decide, ?_, ?_⟩
  · exact ((c1_get_visibility [⟨"u1", [("name", "Ann")], 10, none, "t1", none⟩]
      11 "u1" (by decide)).1 _ (List.mem_cons_self _ _) rfl).1.2
      ⟨by decide, Or.inl rfl⟩
  · exact ((c1_get_visibility [⟨"u1", [("name", "Ann")], 10, none, "t1", none⟩]
      10 "u1" (by decide)).1 _ (List.mem_cons_self _ _) rfl).2
      (fun h => by exact absurd h.1 (by decide))

/-- Claim C3 counterexample: set at txid 1, soft-delete at txid 2, set
again at txid 3, then get at currentTxid 4. The write happened at txid 3,
the read at 4 above it, and no deletion occurred between that set and the
get; yet get returns absent, because the upsert of set leaves the stale
deletion marker of txid 2 in place. -/
theorem c3_counterexample :
    get (set (delete (set ([] : Table) 1 "o" "x" [("k", "0")]) 2 "x").2
      3 "o" "x" [("k", "1")]) 4 "x" = none ∧ (3 : Nat) < 4 := by
  exact ⟨by decide, by decide⟩

/-- Claim C3 (amended): set followed by get at a strictly larger
currentTxid returns the written value, provided additionally that no
row for the id carries a deletion txid below the reading horizon at the
time of the set: the upsert path of set overwrites only data and _txid
and does not clear a pre-existing deletion marker. -/
theorem c3_set_then_get (t : Table) (w c : Nat) (o id : String) (v : Obj)
    (hwf : WFTable t) (hw : w < c)
    (hdel : ∀ r ∈ t, r.id = id →
      (r.deletedTxid = none ∨ ∃ d, r.deletedTxid = some d ∧ c ≤ d)) :
    get (set t w o id v) c id = some v := by
  by_cases hany : t.any (fun r => r.id == id) = true
  · obtain ⟨r, hr, hrid⟩ := List.any_eq_true.1 hany
    have hrid' : r.id = id := by simpa using hrid
    subst hrid'
    have hset : set t w o r.id v
        = t.map (fun x =>
            if x.id == r.id then { x with data := v, txid := w } else x) := by
      unfold TableProxy.set
      rw [if_pos hany]
    rw [hset, get_unfold,
      filter_id_update t r (fun x => { x with data := v, txid := w })
        (visible c) (fun x => rfl) hwf hr]
    have hv : visible c { r with data := v, txid := w } = true :=
      (visible_iff _ _).2 ⟨hw, hdel r hr rfl⟩
    rw [if_pos hv]
    rfl
  · have hset : set t w o id v = t ++ [⟨id, v, w, none, o, none⟩] := by
      unfold TableProxy.set
      rw [if_neg hany]
    have hne : ∀ r ∈ t, r.id ≠ id := by
      intro r hr he
      exact hany (List.any_eq_true.2 ⟨r, hr, by simp [he]⟩)
    have hv : visible c (⟨id, v, w, none, o, none⟩ : Row) = true :=
      (visible_iff _ _).2 ⟨hw, Or.inl rfl⟩
    rw [hset, get_unfold, List.filter_append,
      filter_id_nil t id (visible c) hne]
    simp [hv]

/-- Witness for the amended C3 on an empty table: set at txid 10 then
get at txid 11 returns the written payload. -/
theorem c3_set_then_get_witness :
    WFTable ([] : Table) ∧ (10 : Nat) < 11 ∧
    get (set ([] : Table) 10 "t1" "u1" [("name", "Ann")]) 11 "u1"
      = some [("name", "Ann")] :=
  ⟨by decide, by decide,
    c3_set_then_get [] 10 11 "t1" "u1" [("name", "Ann")] (by decide) (by decide)
      (fun r hr => absurd hr (List.not_mem_nil r))⟩

/-- Claim C10: delete overwrites the deletion txid unconditionally, so a
second delete at a larger txid raises the marker, and a horizon strictly
above the first marker but at most the second sees the record again,
although it was absent there before the second delete. -/
theorem c10_delete_resurrects (t : Table) (r : Row) (d1 d2 c : Nat)
    (hwf : WFTable t) (hr : r ∈ t) (hd : r.deletedTxid = some d1)
    (h1 : d1 < c) (h2 : c ≤ d2) (hcr : r.txid < c) :
    get t c r.id = none ∧
    (delete t d2 r.id).1 = true ∧
    get (delete t d2 r.id).2 c r.id = some r.data := by
  refine ⟨?_, ?_, ?_⟩
  · have hv : ¬(visible c r = true) := by
      intro hv
      rcases ((visible_iff c r).1 hv).2 with hnone | ⟨d, hdd, hcd⟩
      · rw [hd] at hnone; cases hnone
      · rw [hd] at hdd
        cases hdd
        omega
    rw [get_eq_of_mem t c r hwf hr, if_neg (by simp [Bool.eq_false_iff.2 hv])]
  · exact List.any_eq_true.2 ⟨r, hr, by simp⟩
  · have hm : (delete t d2 r.id).2
        = t.map (fun x =>
            if x.id == r.id then { x with deletedTxid := some d2 } else x) := rfl
    rw [hm, get_unfold,
      filter_id_update t r (fun x => { x with deletedTxid := some d2 })
        (visible c) (fun x => rfl) hwf hr]
    have hv : visible c { r with deletedTxid := some d2 } = true :=
      (visible_iff _ _).2 ⟨hcr, Or.inr ⟨d2, rfl, h2⟩⟩
    rw [if_pos hv]
    rfl

/-- Witness for C10: a row created at txid 1 and soft-deleted at txid 2
is absent at horizon 5; re-deleting at txid 7 makes it visible at 5. -/
theorem c10_delete_resurrects_witness :
    WFTable [⟨"u1", [("k", "v")], 1, some 2, "o", none⟩] ∧ (2 : Nat) < 5 ∧
    (5 : Nat) ≤ 7 ∧ (1 : Nat) < 5 ∧
    get [⟨"u1", [("k", "v")], 1, some 2, "o", none⟩] 5 "u1" = none ∧
    get (delete [⟨"u1", [("k", "v")], 1, some 2, "o", none⟩] 7 "u1").2 5 "u1"
      = some [("k", "v")] := by
  have h := c10_delete_resurrects [⟨"u1", [("k", "v")], 1, some 2, "o", none⟩]
    ⟨"u1", [("k", "v")], 1, some 2, "o", none⟩ 2 7 5
    (by decide) (List.mem_cons_self _ _) rfl (by decide) (by decide) (by decide)
  exact ⟨by decide, by decide, by decide, by decide, h.1, h.2.2⟩

/-- Fold of Nat.max never drops below its accumulator. -/
theorem le_foldl_max (l : List Nat) (a : Nat) : a ≤ l.foldl Nat.max a := by
  induction l generalizing a with
  | nil => exact Nat.le_refl a
  | cons x l ih =>
    rw [List.foldl_cons]
    exact Nat.le_trans (Nat.le_max_left a x) (ih (Nat.max a x))

/-- Fold of Nat.max bounds every list element. -/
theorem mem_le_foldl_max :
    ∀ (l : List Nat) (a x : Nat), x ∈ l → x ≤ l.foldl Nat.max a := by
  intro l
  induction l with
  | nil => intro a x hx; cases hx
  | cons y l ih =>
    intro a x hx
    rw [List.foldl_cons]
    rcases List.mem_cons.1 hx with rfl | hxl
    · exact Nat.le_trans (Nat.le_max_right a x) (le_foldl_max l (Nat.max a x))
    · exact ih (Nat.max a y) x hxl

/-- Appending one ordered row extends the running maximum order. -/
theorem maxOrder_append_one (t : Table) (r : Row) (k : Nat)
    (h : r.order = some k) :
    TableProxy.maxOrder (t ++ [r]) = Nat.max (TableProxy.maxOrder t) k := by
  unfold TableProxy.maxOrder
  rw [List.filterMap_append, List.foldl_append]
  simp [List.filterMap, h]

/-- Claim C8: push inserts exactly one new row whose order is the current
maximum order plus one, computed inside the single insert statement and
strictly above every existing order; the running maximum advances to it,
so successive pushes assign strictly increasing, non-duplicate orders. -/
theorem c8_push_order (t : Table) (c : Nat) (o id : String) (v : Obj) :
    (∃ rnew : Row, TableProxy.push t c o id v = t ++ [rnew]
      ∧ rnew.order = some (TableProxy.maxOrder t + 1)
      ∧ rnew.id = id ∧ rnew.data = v ∧ rnew.txid = c) ∧
    (∀ r ∈ t, ∀ m, r.order = some m → m < TableProxy.maxOrder t + 1) ∧
    TableProxy.maxOrder (TableProxy.push t c o id v)
      = TableProxy.maxOrder t + 1 := by
  refine ⟨⟨⟨id, v, c, none, o, some (TableProxy.maxOrder t + 1)⟩,
    rfl, rfl, rfl, rfl, rfl⟩, ?_, ?_⟩
  · intro r hr m hm
    have hmem : m ∈ t.filterMap Row.order := List.mem_filterMap.2 ⟨r, hr, hm⟩
    exact Nat.lt_succ_of_le (mem_le_foldl_max _ 0 m hmem)
  · rw [show TableProxy.push t c o id v
        = t ++ [⟨id, v, c, none, o, some (TableProxy.maxOrder t + 1)⟩] from rfl,
      maxOrder_append_one t _ _ rfl]
    exact Nat.max_eq_right (Nat.le_succ _)

/-- Witness for C8 on two pushes into an empty table: the orders are 1
then 2, strictly increasing. -/
theorem c8_push_order_witness :
    TableProxy.maxOrder ([] : Table) = 0 ∧
    TableProxy.maxOrder (TableProxy.push ([] : Table) 1 "o" "idA" [("k", "a")]) = 1 ∧
    TableProxy.maxOrder (TableProxy.push
      (TableProxy.push ([] : Table) 1 "o" "idA" [("k", "a")])
      1 "o" "idB" [("k", "b")]) = 2 := by
  refine ⟨rfl, ?_, ?_⟩
  · exact (c8_push_order [] 1 "o" "idA" [("k", "a")]).2.2
  · have h := (c8_push_order (TableProxy.push ([] : Table) 1 "o" "idA" [("k", "a")])
      1 "o" "idB" [("k", "b")]).2.2
    rw [h]
    rfl

/-- Under a duplicate-free order column, two rows carrying the same
order value coincide. -/
theorem order_nodup_inj :
    ∀ (t : Table), (t.filterMap Row.order).Nodup →
      ∀ a b : Row, a ∈ t → b ∈ t → ∀ m : Nat,
        a.order = some m → b.order = some m → a = b := by
  intro t
  induction t with
  | nil => intro _ a b ha _ _ _ _; cases ha
  | cons x t ih =>
    intro hnd a b ha hb m hma hmb
    rw [List.filterMap_cons] at hnd
    cases hx : x.order with
    | none =>
      rw [hx] at hnd
      rcases List.mem_cons.1 ha with rfl | hat
      · rw [hx] at hma; cases hma
      · rcases List.mem_cons.1 hb with rfl | hbt
        · rw [hx] at hmb; cases hmb
        · exact ih hnd a b hat hbt m hma hmb
    | some k =>
      rw [hx] at hnd
      rw [List.nodup_cons] at hnd
      rcases List.mem_cons.1 ha with rfl | hat
      · rcases List.mem_cons.1 hb with rfl | hbt
        · rfl
        · rw [hx] at hma
          cases hma
          exact absurd (List.mem_filterMap.2 ⟨b, hbt, hmb⟩) hnd.1
      · rcases List.mem_cons.1 hb with rfl | hbt
        · rw [hx] at hmb
          cases hmb
          exact absurd (List.mem_filterMap.2 ⟨a, hat, hma⟩) hnd.1
        · exact ih hnd.2 a b hat hbt m hma hmb

/-- A nonempty list all of whose elements equal a has head a. -/
theorem head?_eq_of_all (l : List Row) (a : Row) (hne : l ≠ [])
    (h : ∀ x ∈ l, x = a) : l.head? = some a := by
  cases l with
  | nil => exact absurd rfl hne
  | cons x l => rw [List.head?_cons, h x (List.mem_cons_self x l)]

/-- Core of the pop and shift characterizations: behavior of the two
filters of the delete statement on the row holding the selected order. -/
theorem popShiftCore (t : Table) (c : Nat) (r : Row) (m : Nat)
    (hord : (t.filterMap Row.order).Nodup) (hr : r ∈ t)
    (hm : r.order = some m) :
    (r.txid < c →
      ((t.filter (fun x => x.order == some m && decide (x.txid < c))).head?).map
          Row.data = some r.data ∧
      r ∉ t.filter (fun x => !(x.order == some m && decide (x.txid < c))) ∧
      ∀ x ∈ t, x ≠ r →
        x ∈ t.filter (fun x => !(x.order == some m && decide (x.txid < c)))) ∧
    (c ≤ r.txid →
      t.filter (fun x => x.order == some m && decide (x.txid < c)) = [] ∧
      t.filter (fun x => !(x.order == some m && decide (x.txid < c))) = t) := by
  have hcond : ∀ x ∈ t,
      (x.order == some m && decide (x.txid < c)) = true ↔ (x = r ∧ x.txid < c) := by
    intro x hx
    constructor
    · intro h
      rw [Bool.and_eq_true] at h
      have hxo : x.order = some m := by simpa using h.1
      exact ⟨order_nodup_inj t hord x r hx hr m hxo hm, by simpa using h.2⟩
    · rintro ⟨rfl, hlt⟩
      rw [Bool.and_eq_true]
      exact ⟨by simpa using hm, by simpa using hlt⟩
  constructor
  · intro hlt
    have hrc : (r.order == some m && decide (r.txid < c)) = true :=
      (hcond r hr).2 ⟨rfl, hlt⟩
    have hrf : r ∈ t.filter (fun x => x.order == some m && decide (x.txid < c)) :=
      List.mem_filter.2 ⟨hr, hrc⟩
    have hall : ∀ x ∈ t.filter (fun x => x.order == some m && decide (x.txid < c)),
        x = r := by
      intro x hx
      have := List.mem_filter.1 hx
      exact ((hcond x this.1).1 this.2).1
    refine ⟨?_, ?_, ?_⟩
    · rw [head?_eq_of_all _ r (List.ne_nil_of_mem hrf) hall]
      rfl
    · intro hmem
      have := List.mem_filter.1 hmem
      rw [hrc] at this
      cases this.2
    · intro x hx hne
      refine List.mem_filter.2 ⟨hx, ?_⟩
      have : (x.order == some m && decide (x.txid < c)) = false := by
        cases hb : (x.order == some m && decide (x.txid < c)) with
        | false => rfl
        | true => exact absurd ((hcond x hx).1 hb).1 hne
      rw [this]
      rfl
  · intro hge
    have hnone : ∀ x ∈ t,
        (x.order == some m && decide (x.txid < c)) = false := by
      intro x hx
      cases hb : (x.order == some m && decide (x.txid < c)) with
      | false => rfl
      | true =>
        obtain ⟨rfl, hlt⟩ := (hcond x hx).1 hb
        omega
    constructor
    · rw [List.filter_eq_nil_iff]
      intro x hx
      rw [hnone x hx]
      exact Bool.false_ne_true
    · rw [List.filter_eq_self]
      intro x hx
      rw [hnone x hx]
      rfl

/-- Claim C4 (amended): pop and shift select the row whose order equals
the maximum respectively minimum order over all rows, visible or not,
and remove and return it exactly when its creation txid is strictly
below currentTxid; the deletion marker is never consulted, and when the
globally extremal row was created at or above the horizon the call
returns absent and removes nothing, even if visible rows remain. -/
theorem c4_pop_shift (t : Table) (c : Nat) (r : Row) (m : Nat)
    (hord : (t.filterMap Row.order).Nodup) (hr : r ∈ t)
    (hm : r.order = some m) :
    (TableProxy.maxOrderQ t = some m →
      (r.txid < c →
        (TableProxy.pop t c).1 = some r.data ∧
        r ∉ (TableProxy.pop t c).2 ∧
        ∀ x ∈ t, x ≠ r → x ∈ (TableProxy.pop t c).2) ∧
      (c ≤ r.txid → TableProxy.pop t c = (none, t))) ∧
    (TableProxy.minOrderQ t = some m →
      (r.txid < c →
        (TableProxy.shift t c).1 = some r.data ∧
        r ∉ (TableProxy.shift t c).2 ∧
        ∀ x ∈ t, x ≠ r → x ∈ (TableProxy.shift t c).2) ∧
      (c ≤ r.txid → TableProxy.shift t c = (none, t))) := by
  have hcore := popShiftCore t c r m hord hr hm
  constructor
  · intro hq
    have hpop : TableProxy.pop t c
        = (((t.filter (fun x => x.order == some m
              && decide (x.txid < c))).head?).map Row.data,
           t.filter (fun x => !(x.order == some m && decide (x.txid < c)))) := by
      unfold TableProxy.pop
      rw [hq]
    constructor
    · intro hlt
      obtain ⟨h1, h2, h3⟩ := hcore.1 hlt
      rw [hpop]
      exact ⟨h1, h2, h3⟩
    · intro hge
      obtain ⟨h1, h2⟩ := hcore.2 hge
      rw [hpop, h1, h2]
      rfl
  · intro hq
    have hshift : TableProxy.shift t c
        = (((t.filter (fun x => x.order == some m
              && decide (x.txid < c))).head?).map Row.data,
           t.filter (fun x => !(x.order == some m && decide (x.txid < c)))) := by
      unfold TableProxy.shift
      rw [hq]
    constructor
    · intro hlt
      obtain ⟨h1, h2, h3⟩ := hcore.1 hlt
      rw [hshift]
      exact ⟨h1, h2, h3⟩
    · intro hge
      obtain ⟨h1, h2⟩ := hcore.2 hge
      rw [hshift, h1, h2]
      rfl

/-- Claim C4 counterexample: on a table whose maximum-order row is
soft-deleted below the horizon, pop returns the payload of that
invisible row even though a visible row remains, instead of the record
at maximum order among visible rows. -/
theorem c4_counterexample :
    (TableProxy.pop [⟨"a", [("k", "a")], 1, none, "o", some 1⟩,
        ⟨"b", [("k", "b")], 1, some 2, "o", some 2⟩] 5).1 = some [("k", "b")] ∧
    visible 5 (⟨"b", [("k", "b")], 1, some 2, "o", some 2⟩ : Row) = false ∧
    visible 5 (⟨"a", [("k", "a")], 1, none, "o", some 1⟩ : Row) = true := by
  exact ⟨by decide, by decide, by decide⟩

/-- Witness for the amended C4 on the two-row table: pop removes and
returns the globally maximal-order row created below the horizon. -/
theorem c4_pop_shift_witness :
    (([⟨"a", [("k", "a")], 1, none, "o", some 1⟩,
       ⟨"b", [("k", "b")], 1, some 2, "o", some 2⟩] :
        Table).filterMap Row.order).Nodup ∧
    TableProxy.maxOrderQ [⟨"a", [("k", "a")], 1, none, "o", some 1⟩,
      ⟨"b", [("k", "b")], 1, some 2, "o", some 2⟩] = some 2 ∧
    (1 : Nat) < 5 ∧
    (TableProxy.pop [⟨"a", [("k", "a")], 1, none, "o", some 1⟩,
      ⟨"b", [("k", "b")], 1, some 2, "o", some 2⟩] 5).1 = some [("k", "b")] := by
  refine ⟨by decide, by decide, by decide, ?_⟩
  exact (((c4_pop_shift [⟨"a", [("k", "a")], 1, none, "o", some 1⟩,
      ⟨"b", [("k", "b")], 1, some 2, "o", some 2⟩] 5
      ⟨"b", [("k", "b")], 1, some 2, "o", some 2⟩ 2
      (by decide) (by decide) rfl).1 (by decide)).1 (by decide)).1

/-- The order comparison of the result sort is transitive. -/
theorem orderKeyLe_trans (a b c : Row)
    (h1 : orderKeyLe a b = true) (h2 : orderKeyLe b c = true) :
    orderKeyLe a c = true := by
  cases ha : a.order <;> cases hb : b.order <;> cases hc : c.order <;>
    simp [orderKeyLe, ha, hb, hc] at *
  all_goals omega

/-- The order comparison of the result sort is total. -/
theorem orderKeyLe_total (a b : Row) :
    (orderKeyLe a b || orderKeyLe b a) = true := by
  cases ha : a.order <;> cases hb : b.order <;>
    simp [orderKeyLe, ha, hb]
  all_goals omega

/-- Claim C5 (amended): query yields exactly the payloads of the rows
whose data structurally contains the predicate and whose creation txid is
strictly below currentTxid, with the deletion marker never consulted; the
result is a finite list, sorted by the order column, and the pure
function can be re-invoked with the same outcome. -/
theorem c5_query_characterization (t : Table) (c : Nat) (f : Obj) :
    (∀ o, o ∈ TableProxy.query t c f ↔
      ∃ r ∈ t, containsKVs r.data f = true ∧ r.txid < c ∧ r.data = o) ∧
    (∃ rows : List Row,
      rows.Pairwise (fun a b => orderKeyLe a b = true) ∧
      rows.Perm (t.filter (fun r => containsKVs r.data f && decide (r.txid < c))) ∧
      TableProxy.query t c f = rows.map Row.data) := by
  constructor
  · intro o
    constructor
    · intro ho
      obtain ⟨r, hrm, hrd⟩ := List.mem_map.1 ho
      have hrf := List.mem_filter.1 (List.mem_mergeSort.1 hrm)
      rw [Bool.and_eq_true] at hrf
      exact ⟨r, hrf.1, ⟨hrf.2.1, by simpa using hrf.2.2, hrd⟩⟩
    · rintro ⟨r, hrt, hcf, hlt, rfl⟩
      refine List.mem_map.2 ⟨r, ?_, rfl⟩
      refine List.mem_mergeSort.2 (List.mem_filter.2 ⟨hrt, ?_⟩)
      rw [Bool.and_eq_true]
      exact ⟨hcf, by simpa using hlt⟩
  · refine ⟨(t.filter (fun r => containsKVs r.data f
        && decide (r.txid < c))).mergeSort orderKeyLe, ?_, ?_, ?_⟩
    · exact List.sorted_mergeSort
        (fun a b c h1 h2 => orderKeyLe_trans a b c h1 h2)
        (fun a b => orderKeyLe_total a b) _
    · exact List.mergeSort_perm _ _
    · rfl

/-- Claim C5 counterexample: a soft-deleted matching row, invisible at
the horizon under the MVCC visibility rule, is still yielded by query,
which filters only on the creation txid. -/
theorem c5_counterexample :
    TableProxy.query [⟨"a", [("name", "x")], 1, some 2, "o", some 1⟩] 5
      [("name", "x")] = [[("name", "x")]] ∧
    visible 5 (⟨"a", [("name", "x")], 1, some 2, "o", some 1⟩ : Row) = false := by
  constructor
  · have h1 : ([⟨"a", [("name", "x")], 1, some 2, "o", some 1⟩] : Table).filter
        (fun r => containsKVs r.data [("name", "x")] && decide (r.txid < 5))
        = [⟨"a", [("name", "x")], 1, some 2, "o", some 1⟩] := by decide
    unfold TableProxy.query
    rw [h1, List.mergeSort_singleton]
    rfl
  · exact (by decide : visible 5
      (⟨"a", [("name", "x")], 1, some 2, "o", some 1⟩ : Row) = false)

/-- Fold of Nat.min never exceeds its accumulator. -/
theorem foldl_min_le_self :
    ∀ (l : List Nat) (a : Nat), l.foldl Nat.min a ≤ a := by
  intro l
  induction l with
  | nil => intro a; exact Nat.le_refl a
  | cons x l ih =>
    intro a
    rw [List.foldl_cons]
    exact Nat.le_trans (ih (Nat.min a x)) (Nat.min_le_left a x)

/-- Fold of Nat.min is a lower bound of every list element. -/
theorem foldl_min_le_mem :
    ∀ (l : List Nat) (a x : Nat), x ∈ l → l.foldl Nat.min a ≤ x := by
  intro l
  induction l with
  | nil => intro a x hx; cases hx
  | cons y l ih =>
    intro a x hx
    rw [List.foldl_cons]
    rcases List.mem_cons.1 hx with rfl | hxl
    · exact Nat.le_trans (foldl_min_le_self l (Nat.min a x)) (Nat.min_le_right a x)
    · exact ih (Nat.min a y) x hxl

/-- Fold of Nat.min is the accumulator or one of the elements. -/
theorem foldl_min_mem :
    ∀ (l : List Nat) (a : Nat), l.foldl Nat.min a = a ∨ l.foldl Nat.min a ∈ l := by
  intro l
  induction l with
  | nil => intro a; exact Or.inl rfl
  | cons y l ih =>
    intro a
    rw [List.foldl_cons]
    rcases ih (Nat.min a y) with h | h
    · rcases Nat.le_total a y with hay | hya
      · have he : Nat.min a y = a := by
          rw [Nat.min_eq_min]; exact Nat.min_eq_left hay
        rw [he] at h ⊢
        exact Or.inl h
      · have he : Nat.min a y = y := by
          rw [Nat.min_eq_min]; exact Nat.min_eq_right hya
        rw [he] at h ⊢
        exact Or.inr (by rw [h]; exact List.mem_cons_self y l)
    · exact Or.inr (List.mem_cons_of_mem y h)

/-- Anything below the accumulator and every element is below the fold
of Nat.min. -/
theorem le_foldl_min :
    ∀ (l : List Nat) (a b : Nat), b ≤ a → (∀ x ∈ l, b ≤ x) →
      b ≤ l.foldl Nat.min a := by
  intro l
  induction l with
  | nil => intro a b hba _; exact hba
  | cons y l ih =>
    intro a b hba hbl
    rw [List.foldl_cons]
    exact ih (Nat.min a y) b
      (Nat.le_min_of_le_of_le hba (hbl y (List.mem_cons_self y l)))
      (fun x hx => hbl x (List.mem_cons_of_mem y hx))

/-- The derived minimum never exceeds the txid of any open transaction. -/
theorem minActive_le_open (s : SessionDO.State) :
    ∀ p ∈ s.activeTxs, SessionDO.minActiveTxid s ≤ p.2 := by
  intro p hp
  unfold SessionDO.minActiveTxid
  cases h : s.activeTxs.map Prod.snd with
  | nil =>
    rw [List.map_eq_nil_iff] at h
    rw [h] at hp
    cases hp
  | cons v vs =>
    have hsnd : p.2 ∈ s.activeTxs.map Prod.snd := List.mem_map_of_mem Prod.snd hp
    rw [h] at hsnd
    rcases List.mem_cons.1 hsnd with he | hm
    · rw [he]
      exact foldl_min_le_self vs v
    · exact foldl_min_le_mem vs v p.2 hm

/-- Under the auxiliary invariant the derived minimum never exceeds the
counter. -/
theorem minActive_le_counter (s : SessionDO.State)
    (hinv : SessionDO.CoordInv s) :
    SessionDO.minActiveTxid s ≤ s.currentTxid := by
  unfold SessionDO.minActiveTxid
  cases h : s.activeTxs.map Prod.snd with
  | nil => exact Nat.le_refl _
  | cons v vs =>
    have hm : vs.foldl Nat.min v ∈ v :: vs := by
      rcases foldl_min_mem vs v with he | hm
      · rw [he]; exact List.mem_cons_self v vs
      · exact List.mem_cons_of_mem v hm
    rw [← h] at hm
    obtain ⟨p, hp, he⟩ := List.mem_map.1 hm
    show List.foldl Nat.min v vs ≤ s.currentTxid
    rw [← he]
    exact hinv p hp

/-- A common lower bound of the counter and every open txid is a lower
bound of the derived minimum. -/
theorem le_minActive (s : SessionDO.State) (b : Nat)
    (hc : b ≤ s.currentTxid) (ho : ∀ p ∈ s.activeTxs, b ≤ p.2) :
    b ≤ SessionDO.minActiveTxid s := by
  unfold SessionDO.minActiveTxid
  cases h : s.activeTxs.map Prod.snd with
  | nil => exact hc
  | cons v vs =>
    have hall : ∀ x ∈ v :: vs, b ≤ x := by
      intro x hx
      rw [← h] at hx
      obtain ⟨p, hp, he⟩ := List.mem_map.1 hx
      rw [← he]
      exact ho p hp
    exact le_foldl_min vs v b (hall v (List.mem_cons_self v vs))
      (fun x hx => hall x (List.mem_cons_of_mem v hx))

/-- Membership in the JS-Map set operation: an entry of the updated map
is an old entry or the fresh binding. -/
theorem mapSet_mem (m : List (String × Nat)) (k : String) (v : Nat) :
    ∀ p ∈ SessionDO.mapSet m k v, p ∈ m ∨ p = (k, v) := by
  intro p hp
  unfold SessionDO.mapSet at hp
  by_cases hc : m.any (fun q => q.1 == k) = true
  · rw [if_pos hc] at hp
    obtain ⟨q, hq, he⟩ := List.mem_map.1 hp
    by_cases hqk : (q.1 == k) = true
    · rw [if_pos hqk] at he
      exact Or.inr he.symm
    · rw [if_neg hqk] at he
      exact Or.inl (he ▸ hq)
  · rw [if_neg hc] at hp
    rcases List.mem_append.1 hp with h | h
    · exact Or.inl h
    · exact Or.inr (List.mem_singleton.1 h)

/-- The auxiliary invariant holds initially and is preserved by every
coordinator operation. -/
theorem coordInv_step (s : SessionDO.State) (op : SessionDO.Op)
    (h : SessionDO.CoordInv s) : SessionDO.CoordInv (SessionDO.step s op) := by
  cases op with
  | alloc =>
    intro p hp
    exact Nat.le_succ_of_le (h p hp)
  | begin sid =>
    intro p hp
    rcases mapSet_mem _ _ _ p hp with hm | he
    · exact Nat.le_succ_of_le (h p hm)
    · rw [he]
      exact Nat.le_refl _
  | commit sid =>
    intro p hp
    exact h p (List.mem_of_mem_filter hp)

/-- The auxiliary invariant holds in every state reachable from a fresh
coordinator. -/
theorem coordInv_run (ops : List SessionDO.Op) :
    SessionDO.CoordInv (SessionDO.run ops) := by
  suffices h : ∀ s, SessionDO.CoordInv s
      → SessionDO.CoordInv (ops.foldl SessionDO.step s) from
    h _ (fun p hp => absurd hp (List.not_mem_nil p))
  induction ops with
  | nil => exact fun s hs => hs
  | cons op ops ih => exact fun s hs => ih _ (coordInv_step s op hs)

/-- One coordinator operation never decreases the derived minimum. -/
theorem minActive_step_mono (s : SessionDO.State) (op : SessionDO.Op)
    (hinv : SessionDO.CoordInv s) :
    SessionDO.minActiveTxid s ≤ SessionDO.minActiveTxid (SessionDO.step s op) := by
  cases op with
  | alloc =>
    apply le_minActive
    · exact Nat.le_succ_of_le (minActive_le_counter s hinv)
    · exact fun p hp => minActive_le_open s p hp
  | begin sid =>
    apply le_minActive
    · exact Nat.le_succ_of_le (minActive_le_counter s hinv)
    · intro p hp
      rcases mapSet_mem _ _ _ p hp with hm | he
      · exact minActive_le_open s p hm
      · rw [he]
        exact Nat.le_succ_of_le (minActive_le_counter s hinv)
  | commit sid =>
    apply le_minActive
    · exact minActive_le_counter s hinv
    · exact fun p hp => minActive_le_open s p (List.mem_of_mem_filter hp)

/-- Claim C2: in every state reachable by allocateTxid, beginTransaction
and commit from a fresh coordinator, minActiveTxid is at most the txid of
every currently open transaction, and no next operation, in particular no
commit in any order, ever decreases minActiveTxid. -/
theorem c2_minActive_invariant (ops : List SessionDO.Op) (op : SessionDO.Op) :
    (∀ p ∈ (SessionDO.run ops).activeTxs,
      SessionDO.minActiveTxid (SessionDO.run ops) ≤ p.2) ∧
    SessionDO.minActiveTxid (SessionDO.run ops)
      ≤ SessionDO.minActiveTxid (SessionDO.step (SessionDO.run ops) op) :=
  ⟨minActive_le_open _, minActive_step_mono _ op (coordInv_run ops)⟩

/-- A name passing the allow-list is nonempty, hence truthy in JS. -/
theorem validIdent_ne_empty (s : String) (h : validIdent s = true) : s ≠ "" := by
  unfold validIdent at h
  rw [Bool.and_eq_true] at h
  simpa using h.1

/-- Resolution result on a registry miss. -/
theorem getPtrResolve_none (reg : Registry) (name owner : String)
    (s : ProxyState) (hlk : lookupReg reg name owner = none) :
    getPtrResolve reg name owner s
      = (.error .notFound, s, [.registry name owner]) := by
  unfold getPtrResolve
  rw [hlk]

/-- Resolution result on a hit with a valid identifier. -/
theorem getPtrResolve_ok (reg : Registry) (name owner : String)
    (row : RegRow) (s : ProxyState)
    (hlk : lookupReg reg name owner = some row)
    (hv : validIdent row.ptr = true) :
    getPtrResolve reg name owner s
      = (.ok row.ptr, { s with ptrCache := some row.ptr },
         [.registry name owner]) := by
  unfold getPtrResolve
  rw [hlk]
  show (match sanitizeIdentifier row.ptr with
    | Except.error e => (Except.error e, s, [Stmt.registry name owner])
    | Except.ok p =>
      (Except.ok p, { s with ptrCache := some p }, [Stmt.registry name owner])) = _
  rw [show sanitizeIdentifier row.ptr = Except.ok row.ptr from by
    unfold sanitizeIdentifier; rw [if_pos hv]]

/-- Resolution result on a hit with an identifier failing the
allow-list. -/
theorem getPtrResolve_bad (reg : Registry) (name owner : String)
    (row : RegRow) (s : ProxyState)
    (hlk : lookupReg reg name owner = some row)
    (hbad : validIdent row.ptr = false) :
    getPtrResolve reg name owner s
      = (.error .invalidIdentifier, s, [.registry name owner]) := by
  unfold getPtrResolve
  rw [hlk]
  show (match sanitizeIdentifier row.ptr with
    | Except.error e => (Except.error e, s, [Stmt.registry name owner])
    | Except.ok p =>
      (Except.ok p, { s with ptrCache := some p }, [Stmt.registry name owner])) = _
  rw [show sanitizeIdentifier row.ptr = Except.error Err.invalidIdentifier from by
    unfold sanitizeIdentifier
    rw [if_neg (by rw [hbad]; exact Bool.false_ne_true)]]

/-- Claim C7: when the registry row resolves to an identifier failing
the allow-list, every accessor operation fails with InvalidIdentifier
from a fresh instance, and the only statement issued is the registry
resolution query: no statement interpolating the identifier reaches the
backing executor. -/
theorem c7_invalid_identifier (reg : Registry) (name owner : String)
    (row : RegRow) (k : OpKind)
    (hlk : lookupReg reg name owner = some row)
    (hbad : validIdent row.ptr = false) :
    opRun k reg name owner ProxyState.init
      = (.error .invalidIdentifier, ProxyState.init, [.registry name owner]) ∧
    ∀ st ∈ (opRun k reg name owner ProxyState.init).2.2,
      ∀ k2 p, st ≠ .table k2 p := by
  have hres : getPtr reg name owner ProxyState.init
      = (.error .invalidIdentifier, ProxyState.init, [.registry name owner]) :=
    getPtrResolve_bad reg name owner row ProxyState.init hlk hbad
  have hop : opRun k reg name owner ProxyState.init
      = (.error .invalidIdentifier, ProxyState.init, [.registry name owner]) := by
    unfold opRun
    rw [hres]
  refine ⟨hop, ?_⟩
  rw [hop]
  intro st hst k2 p
  rw [List.mem_singleton.1 hst]
  intro he
  cases he

/-- Witness for C7: a registry row resolving to an identifier with a
space and punctuation makes get fail with InvalidIdentifier and issue
only the resolution query. -/
theorem c7_invalid_identifier_witness :
    lookupReg [⟨"users", "bad ptr!", "o"⟩] "users" "o"
      = some ⟨"users", "bad ptr!", "o"⟩ ∧
    validIdent "bad ptr!" = false ∧
    opRun .get [⟨"users", "bad ptr!", "o"⟩] "users" "o" ProxyState.init
      = (.error .invalidIdentifier, ProxyState.init, [.registry "users" "o"]) :=
  ⟨rfl, by decide,
    (c7_invalid_identifier [⟨"users", "bad ptr!", "o"⟩] "users" "o"
      ⟨"users", "bad ptr!", "o"⟩ .get rfl (by decide)).1⟩

/-- Claim C9: a successful first getPtr on a fresh accessor issues
exactly one registry resolution query and caches the physical name; a
subsequent call returns the same name from the cache, leaves the state
unchanged, and issues no statement at all. -/
theorem c9_getPtr_caches (reg : Registry) (name owner p : String)
    (h : (getPtr reg name owner ProxyState.init).1 = .ok p) :
    (getPtr reg name owner ProxyState.init).2.2 = [.registry name owner] ∧
    (getPtr reg name owner ProxyState.init).2.1 = ⟨some p⟩ ∧
    getPtr reg name owner ⟨some p⟩ = (.ok p, ⟨some p⟩, []) := by
  have hred : getPtr reg name owner ProxyState.init
      = getPtrResolve reg name owner ProxyState.init := rfl
  rw [hred] at h ⊢
  cases hlk : lookupReg reg name owner with
  | none =>
    rw [getPtrResolve_none reg name owner ProxyState.init hlk] at h
    cases h
  | some row =>
    by_cases hv : validIdent row.ptr = true
    · rw [getPtrResolve_ok reg name owner row ProxyState.init hlk hv] at h ⊢
      have hp : row.ptr = p := by
        cases h
        rfl
      subst hp
      refine ⟨rfl, rfl, ?_⟩
      unfold getPtr
      show (if row.ptr ≠ "" then
          (Except.ok row.ptr, ({ ptrCache := some row.ptr } : ProxyState),
            ([] : List Stmt))
        else getPtrResolve reg name owner { ptrCache := some row.ptr }) = _
      rw [if_pos (validIdent_ne_empty row.ptr hv)]
    · rw [getPtrResolve_bad reg name owner row ProxyState.init
        (by rw [hlk]) (Bool.eq_false_iff.2 hv)] at h
      cases h

/-- Witness for C9 on a one-row registry: the first call resolves and
issues one statement, the second returns the cache and issues none. -/
theorem c9_getPtr_caches_witness :
    (getPtr [⟨"users", "tbl_users_abc", "o"⟩] "users" "o" ProxyState.init).1
      = .ok "tbl_users_abc" ∧
    (getPtr [⟨"users", "tbl_users_abc", "o"⟩] "users" "o" ProxyState.init).2.2
      = [.registry "users" "o"] ∧
    getPtr [⟨"users", "tbl_users_abc", "o"⟩] "users" "o" ⟨some "tbl_users_abc"⟩
      = (.ok "tbl_users_abc", ⟨some "tbl_users_abc"⟩, []) := by
  have h := c9_getPtr_caches [⟨"users", "tbl_users_abc", "o"⟩] "users" "o"
    "tbl_users_abc" rfl
  exact ⟨rfl, h.1, h.2.2⟩

/-- Case-insensitive equality is reflexive. -/
theorem eqIC_refl (s : String) : eqIC s s = true := by
  simp [eqIC]

/-- Case-insensitively equal strings have the same keyword status. -/
theorem isKw_congr (t ptr : String) (h : eqIC t ptr = true) :
    isKw t = isKw ptr := by
  have he : t.data.map lowerCode = ptr.data.map lowerCode := by
    simpa [eqIC] using h
  simp [isKw, eqIC, he]

/-- Prepending a non-keyword word does not change the spec-side foreign
reference predicate. -/
theorem spec_cons_word (ptr t : String) (ht : isKw t = false) :
    ∀ rest : List Tok,
      specForeignRef (.word t :: rest) ptr = specForeignRef rest ptr
  | [] => rfl
  | .word _ :: _ => rfl
  | .sep _ :: [] => rfl
  | .sep _ :: .sep _ :: _ => rfl
  | .sep ws :: .word t2 :: rest2 => by
    show ((isKw t && isWsTok (.sep ws) && !eqIC t2 ptr)
        || specForeignRef (.word t2 :: rest2) ptr)
      = specForeignRef (.sep ws :: .word t2 :: rest2) ptr
    rw [ht, Bool.false_and, Bool.false_and, Bool.false_or]
    rfl

/-- On a physical name that is not itself a FROM or JOIN keyword, the
left-to-right consuming scan of the source regex agrees with the plain
every-triple reading of the spec. -/
theorem scanner_eq_spec (ptr : String) (hptr : isKw ptr = false) :
    ∀ toks : List Tok, containsOtherTables toks ptr = specForeignRef toks ptr
  | [] => rfl
  | .sep ws :: rest => by
    show containsOtherTables rest ptr = specForeignRef rest ptr
    exact scanner_eq_spec ptr hptr rest
  | .word kw :: [] => rfl
  | .word kw :: .word t2 :: rest2 => by
    show containsOtherTables (.word t2 :: rest2) ptr
        = specForeignRef (.word t2 :: rest2) ptr
    exact scanner_eq_spec ptr hptr (.word t2 :: rest2)
  | .word kw :: .sep ws :: [] => rfl
  | .word kw :: .sep ws :: .sep ws2 :: rest2 => by
    show containsOtherTables (.sep ws2 :: rest2) ptr
        = specForeignRef (.sep ws2 :: rest2) ptr
    exact scanner_eq_spec ptr hptr (.sep ws2 :: rest2)
  | .word kw :: .sep ws :: .word t :: rest2 => by
    by_cases hg : (isKw kw && isWsTok (.sep ws)) = true
    · by_cases he : eqIC t ptr = true
      · have ht : isKw t = false := by
          rw [isKw_congr t ptr he]
          exact hptr
        calc containsOtherTables (.word kw :: .sep ws :: .word t :: rest2) ptr
            = containsOtherTables rest2 ptr := by
              show (if isKw kw && isWsTok (.sep ws) then
                  if !eqIC t ptr then true else containsOtherTables rest2 ptr
                else containsOtherTables (.word t :: rest2) ptr) = _
              rw [hg, he]
              rfl
          _ = specForeignRef rest2 ptr := scanner_eq_spec ptr hptr rest2
          _ = specForeignRef (.word t :: rest2) ptr :=
              (spec_cons_word ptr t ht rest2).symm
          _ = specForeignRef (.word kw :: .sep ws :: .word t :: rest2) ptr := by
              show _ = ((isKw kw && isWsTok (.sep ws) && !eqIC t ptr)
                  || specForeignRef (.word t :: rest2) ptr)
              rw [hg, he]
              rfl
      · have hf : eqIC t ptr = false := Bool.eq_false_iff.2 he
        show (if isKw kw && isWsTok (.sep ws) then
            if !eqIC t ptr then true else containsOtherTables rest2 ptr
          else containsOtherTables (.word t :: rest2) ptr)
          = ((isKw kw && isWsTok (.sep ws) && !eqIC t ptr)
              || specForeignRef (.word t :: rest2) ptr)
        rw [hg, hf]
        rfl
    · have hgf : (isKw kw && isWsTok (.sep ws)) = false := Bool.eq_false_iff.2 hg
      calc containsOtherTables (.word kw :: .sep ws :: .word t :: rest2) ptr
          = containsOtherTables (.word t :: rest2) ptr := by
            show (if isKw kw && isWsTok (.sep ws) then
                if !eqIC t ptr then true else containsOtherTables rest2 ptr
              else containsOtherTables (.word t :: rest2) ptr) = _
            rw [hgf]
            rfl
        _ = specForeignRef (.word t :: rest2) ptr :=
            scanner_eq_spec ptr hptr (.word t :: rest2)
        _ = specForeignRef (.word kw :: .sep ws :: .word t :: rest2) ptr := by
            show _ = ((isKw kw && isWsTok (.sep ws) && !eqIC t ptr)
                || specForeignRef (.word t :: rest2) ptr)
            rw [hgf]
            rfl

/-- When every FROM JOIN target of the original statement is the logical
name, the rewritten statement carries no foreign reference. -/
theorem spec_rewrite_false (name ptr : String) (hptr : isKw ptr = false) :
    ∀ toks : List Tok, tableRefsOnly name toks = true →
      specForeignRef (rewriteToks name ptr toks) ptr = false
  | [], _ => rfl
  | .sep ws :: rest, h => by
    show specForeignRef (rewriteToks name ptr rest) ptr = false
    exact spec_rewrite_false name ptr hptr rest h
  | .word kw :: [], _ => rfl
  | .word kw :: .word t2 :: rest2, h => by
    show specForeignRef (rewriteToks name ptr (.word t2 :: rest2)) ptr = false
    exact spec_rewrite_false name ptr hptr (.word t2 :: rest2) h
  | .word kw :: .sep ws :: [], _ => rfl
  | .word kw :: .sep ws :: .sep ws2 :: rest2, h => by
    show specForeignRef (rewriteToks name ptr (.sep ws2 :: rest2)) ptr = false
    exact spec_rewrite_false name ptr hptr (.sep ws2 :: rest2) h
  | .word kw :: .sep ws :: .word t :: rest2, h => by
    rw [show tableRefsOnly name (.word kw :: .sep ws :: .word t :: rest2)
        = ((!(isKw kw && isWsTok (.sep ws)) || t == name)
            && tableRefsOnly name (.word t :: rest2)) from rfl,
      Bool.and_eq_true] at h
    have hrest := spec_rewrite_false name ptr hptr (.word t :: rest2) h.2
    show ((isKw (if kw == name then ptr else kw) && isWsTok (.sep ws)
        && !eqIC (if t == name then ptr else t) ptr)
        || specForeignRef (rewriteToks name ptr (.word t :: rest2)) ptr) = false
    have hflag : (isKw (if kw == name then ptr else kw) && isWsTok (.sep ws)
        && !eqIC (if t == name then ptr else t) ptr) = false := by
      by_cases hkwn : (kw == name) = true
      · rw [if_pos hkwn, hptr, Bool.false_and, Bool.false_and]
      · rw [if_neg hkwn]
        by_cases hg : (isKw kw && isWsTok (.sep ws)) = true
        · have ht : (t == name) = true := by
            have h1 := h.1
            rw [hg] at h1
            simpa using h1
          rw [if_pos ht, eqIC_refl ptr]
          show (isKw kw && isWsTok (.sep ws) && !true) = false
          rw [Bool.not_true, Bool.and_false]
        · rw [Bool.eq_false_iff.2 hg, Bool.false_and]
    rw [hflag, Bool.false_or]
    exact hrest

/-- Claim C6 counterexample: with physical name join, the statement
select x from join other is executed although its rewritten text contains
a JOIN table reference, other, differing from the physical name: the scan
consumed the word join as the target of FROM and never rescanned it. -/
theorem c6_counterexample :
    execTokens "t" "join"
      [.word "select", .sep " ", .word "x", .sep " ", .word "from",
       .sep " ", .word "join", .sep " ", .word "other"]
      = .ok [.word "select", .sep " ", .word "x", .sep " ", .word "from",
       .sep " ", .word "join", .sep " ", .word "other"] ∧
    specForeignRef (rewriteToks "t" "join"
      [.word "select", .sep " ", .word "x", .sep " ", .word "from",
       .sep " ", .word "join", .sep " ", .word "other"]) "join" = true := by
  exact ⟨rfl, by decide⟩

/-- Claim C6 (amended): provided the physical name is not itself the word
from or join case-insensitively, exec fails with CrossTableAccess exactly
when the rewritten text contains a FROM or JOIN table reference differing
case-insensitively from the physical name, and a statement whose FROM and
JOIN targets are all the logical name is accepted and executed as the
rewritten text. -/
theorem c6_exec_guard (name ptr : String) (toks : List Tok)
    (hptr : isKw ptr = false) :
    (execTokens name ptr toks = .error .crossTableAccess ↔
      specForeignRef (rewriteToks name ptr toks) ptr = true) ∧
    (tableRefsOnly name toks = true →
      execTokens name ptr toks = .ok (rewriteToks name ptr toks)) := by
  have heq := scanner_eq_spec ptr hptr (rewriteToks name ptr toks)
  have hexec : execTokens name ptr toks
      = (if containsOtherTables (rewriteToks name ptr toks) ptr
         then Except.error Err.crossTableAccess
         else Except.ok (rewriteToks name ptr toks)) := rfl
  constructor
  · constructor
    · intro he
      by_cases hc : containsOtherTables (rewriteToks name ptr toks) ptr = true
      · rw [← heq]
        exact hc
      · rw [hexec, if_neg hc] at he
        cases he
    · intro hs
      rw [hexec, if_pos (by rw [heq]; exact hs)]
  · intro ho
    have hspec := spec_rewrite_false name ptr hptr toks ho
    rw [hexec, if_neg (by rw [heq, hspec]; exact Bool.false_ne_true)]

/-- Witness for the amended C6: a single-table select referencing only
the logical name users is rewritten to the physical name and executed. -/
theorem c6_exec_guard_witness :
    isKw "tbl_users_abc" = false ∧
    tableRefsOnly "users"
      [.word "SELECT", .sep " * ", .word "FROM", .sep " ", .word "users",
       .sep " ", .word "WHERE", .sep " ", .word "id", .sep " = $", .word "1"]
      = true ∧
    execTokens "users" "tbl_users_abc"
      [.word "SELECT", .sep " * ", .word "FROM", .sep " ", .word "users",
       .sep " ", .word "WHERE", .sep " ", .word "id", .sep " = $", .word "1"]
      = .ok [.word "SELECT", .sep " * ", .word "FROM", .sep " ",
       .word "tbl_users_abc", .sep " ", .word "WHERE", .sep " ",
       .word "id", .sep " = $", .word "1"] := by
  refine ⟨by decide, by decide, ?_⟩
  rw [(c6_exec_guard "users" "tbl_users_abc"
    [.word "SELECT", .sep " * ", .word "FROM", .sep " ", .word "users",
     .sep " ", .word "WHERE", .sep " ", .word "id", .sep " = $", .word "1"]
    (by decide)).2 (by decide)]
  rfl

end Claims

end Kontract
